import Mathlib

/-!
A verification development for the `box` sandbox (`src/box/box.c`).

The C functions relevant to the claims are shallowly embedded as executable
Lean functions.  C strings (NUL-terminated `char` buffers) are modelled as
`List Char` that never contains the NUL character; reading `*p` on an
exhausted list corresponds to reading the terminating NUL.  Machine integers
(`int`, `arg_t`) are modelled as `Int`/`Nat`; the only place where the word
size matters is the syscall-number sentinel `~(arg_t)0`, which on the
`CONFIG_BOX_KERNEL_AMD64` build equals `2^64 - 1`.
-/

namespace Box

/-- The `enum action` of box.c (the primary-action part, `A_ACTION_MASK`).
The orthogonal flag bits (`A_NO_RETVAL`, `A_SAMPLE_MEM`, `A_LIBERAL`) are
modelled separately in `SyscallAct`. -/
inductive Action where
  | A_DEFAULT
  | A_NO
  | A_YES
  | A_FILENAME
deriving DecidableEq, Repr

/-- `struct path_rule` (box.c:411): a pattern and an action. -/
structure PathRule where
  path : List Char
  action : Action
deriving DecidableEq, Repr

/-- Outcome of the character loop of `match_path_rule` (box.c:460-474).
`ret_default` models `return A_DEFAULT` from inside the loop; `brk` models
the `break` taken when the pattern character is `/` and the path is
exhausted (`rr[-1] == '/' && !path[-1]`); `done rest` models running off
the end of the pattern with `rest` the unread remainder of the path. -/
inductive MprOut where
  | ret_default
  | brk
  | done (rest : List Char)
deriving DecidableEq, Repr

/-- The `while (*rr)` loop of `match_path_rule`.  A mismatch against the
path terminator (empty path list) with pattern character `/` breaks out of
the loop; any other mismatch returns `A_DEFAULT`. -/
def mprLoop : List Char → List Char → MprOut
  | [], p => .done p
  | pc :: _, [] => if pc = '/' then .brk else .ret_default
  | pc :: prest, px :: pxrest =>
    if pc = px then mprLoop prest pxrest else .ret_default

/-- `match_path_rule` (box.c:460-474).  After the loop, the C code returns
`A_DEFAULT` when the pattern is nonempty, does not end in `/`, and path
characters remain (`rr > r->path && rr[-1] != '/' && *path`); in the `brk`
case that test is vacuous because `rr[-1] == '/'`, so the rule action is
returned. -/
def match_path_rule (r : PathRule) (p : List Char) : Action :=
  match mprLoop r.path p with
  | .ret_default => .A_DEFAULT
  | .brk => r.action
  | .done rest =>
    if r.path ≠ [] ∧ r.path.getLast? ≠ some '/' ∧ rest ≠ [] then .A_DEFAULT
    else r.action

/-- Specification-side matching condition used to state the amended form of
claim C2: the rule fires exactly when its pattern is a prefix of the path
and either the pattern is empty, ends in `/`, or consumed the whole path;
or the path is a proper prefix of the pattern and the next pattern
character is `/`. -/
def matchCond (pat p : List Char) : Bool :=
  (pat.isPrefixOf p && (pat.isEmpty || pat.getLast? == some '/' || pat.length == p.length))
  || (p.isPrefixOf pat && pat.get? p.length == some '/')

/-- The user-rule scan loop of `valid_filename` (box.c:866-867):
`for (r = rules; r && !act; r = r->next) act = match_path_rule(r, path);`
(`!act` tests `act == A_DEFAULT`, the zero value). -/
def scan_rules (rs : List PathRule) (p : List Char) (act : Action) : Action :=
  match rs with
  | [] => act
  | r :: rest =>
    if act = .A_DEFAULT then scan_rules rest p (match_path_rule r p) else act

/-- `default_path_rules` (box.c:417-429). -/
def default_path_rules : List PathRule :=
  [ ⟨"/etc/".toList, .A_YES ⟩,
    ⟨"/lib/".toList, .A_YES ⟩,
    ⟨"/usr/lib/".toList, .A_YES ⟩,
    ⟨"/opt/lib/".toList, .A_YES ⟩,
    ⟨"/usr/share/zoneinfo/".toList, .A_YES ⟩,
    ⟨"/usr/share/locale/".toList, .A_YES ⟩,
    ⟨"/dev/null".toList, .A_YES ⟩,
    ⟨"/dev/zero".toList, .A_YES ⟩,
    ⟨"/proc/meminfo".toList, .A_YES ⟩,
    ⟨"/proc/self/stat".toList, .A_YES ⟩,
    ⟨"/proc/self/exe".toList, .A_YES ⟩ ]

example : match_path_rule ⟨"/etc/".toList, .A_YES⟩ "/etc".toList = .A_YES := by decide
example : match_path_rule ⟨"/dev/null".toList, .A_YES⟩ "/dev".toList = .A_YES := by decide
example : match_path_rule ⟨"/dev/null".toList, .A_YES⟩ "/dev/null".toList = .A_YES := by decide
example : match_path_rule ⟨"/dev/null".toList, .A_YES⟩ "/dev/nul".toList = .A_DEFAULT := by decide
example : match_path_rule ⟨"/etc/".toList, .A_YES⟩ "/etc/passwd".toList = .A_YES := by decide
example : match_path_rule ⟨[], .A_NO⟩ "/x".toList = .A_NO := by decide
example : match_path_rule ⟨[], .A_NO⟩ [] = .A_NO := by decide

lemma mprLoop_done_iff (pat : List Char) :
    ∀ p rest, mprLoop pat p = .done rest ↔ p = pat ++ rest := by
  induction pat with
  | nil =>
    intro p rest
    simp [mprLoop]
  | cons pc prest ih =>
    intro p rest
    cases p with
    | nil =>
      simp only [mprLoop]
      constructor
      · intro h
        split at h <;> simp_all
      · intro h
        exact absurd h (by simp)
    | cons px pxrest =>
      simp only [mprLoop]
      by_cases hpc : pc = px
      · subst hpc
        rw [if_pos rfl, ih pxrest rest]
        simp
      · rw [if_neg hpc]
        constructor
        · intro h; cases h
        · intro h
          exact absurd (List.cons.inj h).1 fun e => hpc e.symm

lemma mprLoop_brk_iff (pat : List Char) :
    ∀ p, mprLoop pat p = .brk ↔ ∃ t, pat = p ++ '/' :: t := by
  induction pat with
  | nil =>
    intro p
    simp [mprLoop]
  | cons pc prest ih =>
    intro p
    cases p with
    | nil =>
      simp only [mprLoop, List.nil_append]
      constructor
      · intro h
        split at h
        · next hpc => exact ⟨prest, by simp [hpc]⟩
        · cases h
      · rintro ⟨t, ht⟩
        rw [if_pos (List.cons.inj ht).1]
    | cons px pxrest =>
      simp only [mprLoop]
      by_cases hpc : pc = px
      · subst hpc
        rw [if_pos rfl, ih pxrest]
        constructor
        · rintro ⟨t, ht⟩; exact ⟨t, by simp [ht]⟩
        · rintro ⟨t, ht⟩
          exact ⟨t, (List.cons.inj ht).2⟩
      · rw [if_neg hpc]
        constructor
        · intro h; cases h
        · rintro ⟨t, ht⟩
          exact absurd (List.cons.inj ht).1 hpc

lemma prefix_slash_iff (pat p : List Char) :
    (∃ t, pat = p ++ '/' :: t) ↔ (p <+: pat ∧ pat.get? p.length = some '/') := by
  constructor
  · rintro ⟨t, rfl⟩
    refine ⟨⟨'/' :: t, rfl⟩, ?_⟩
    rw [List.get?_append_right (Nat.le_refl _)]
    simp
  · rintro ⟨⟨t, rfl⟩, hget⟩
    rw [List.get?_append_right (Nat.le_refl _)] at hget
    simp only [Nat.sub_self] at hget
    cases t with
    | nil => simp at hget
    | cons c t' =>
      simp only [List.get?] at hget
      exact ⟨t', by simp [Option.some.inj hget]⟩

/-- Amended form of claim C2: a rule matches a path exactly when its pattern
is a prefix of the path and either the pattern is empty, ends in `/`, or
equals the whole path; or the path is a proper prefix of the pattern and
the pattern character at position `|path|` is `/`.  In particular a path
ending at ANY `/` boundary of the pattern matches (also in the middle of
the pattern, e.g. path `/dev` against rule `/dev/null`), and the empty
pattern matches everything.  In every other case the matcher returns
`A_DEFAULT`. -/
theorem C2_match_path_rule_characterization (r : PathRule) (p : List Char) :
    match_path_rule r p = if matchCond r.path p then r.action else .A_DEFAULT := by
  unfold match_path_rule
  rcases hout : mprLoop r.path p with _ | _ | rest
  · -- loop returned A_DEFAULT: neither disjunct of matchCond can hold
    have hdone : ∀ rest, ¬ p = r.path ++ rest := by
      intro rest h
      rw [← mprLoop_done_iff r.path p rest] at h
      rw [hout] at h; cases h
    have hbrk : ¬ ∃ t, r.path = p ++ '/' :: t := by
      intro h
      rw [← mprLoop_brk_iff r.path p] at h
      rw [hout] at h; cases h
    have hmc : matchCond r.path p = false := by
      unfold matchCond
      simp only [Bool.or_eq_false_iff, Bool.and_eq_false_iff]
      constructor
      · left
        rw [Bool.eq_false_iff]
        intro hpre
        rw [List.isPrefixOf_iff_prefix] at hpre
        obtain ⟨t, ht⟩ := hpre
        exact hdone t ht.symm
      · by_cases hpre : p <+: r.path
        · right
          rw [Bool.eq_false_iff]
          intro hget
          rw [beq_iff_eq] at hget
          exact hbrk ((prefix_slash_iff r.path p).mpr ⟨hpre, hget⟩)
        · left
          rw [Bool.eq_false_iff, Ne, List.isPrefixOf_iff_prefix]
          exact hpre
    rw [hmc]
    simp
  · -- break: the path ends at a `/` boundary inside the pattern
    obtain ⟨t, ht⟩ := (mprLoop_brk_iff r.path p).mp hout
    have hmc : matchCond r.path p = true := by
      unfold matchCond
      have := (prefix_slash_iff r.path p).mp ⟨t, ht⟩
      simp only [Bool.or_eq_true, Bool.and_eq_true]
      right
      exact ⟨by rw [List.isPrefixOf_iff_prefix]; exact this.1, by rw [beq_iff_eq]; exact this.2⟩
    rw [hmc]
    simp
  · -- pattern exhausted with `rest` of the path remaining
    have hp : p = r.path ++ rest := (mprLoop_done_iff r.path p rest).mp hout
    dsimp only
    by_cases hcond : r.path ≠ [] ∧ r.path.getLast? ≠ some '/' ∧ rest ≠ []
    · rw [if_pos hcond]
      have hmc : matchCond r.path p = false := by
        unfold matchCond
        simp only [Bool.or_eq_false_iff, Bool.and_eq_false_iff]
        constructor
        · right
          refine ⟨⟨?_, ?_⟩, ?_⟩
          · simp [List.isEmpty_iff, hcond.1]
          · simp only [beq_eq_false_iff_ne, Ne]
            exact hcond.2.1
          · simp only [beq_eq_false_iff_ne, Ne, hp, List.length_append]
            intro hlen
            have : rest.length = 0 := by omega
            exact hcond.2.2 (List.eq_nil_of_length_eq_zero this)
        · by_cases hpre : p <+: r.path
          · right
            rw [Bool.eq_false_iff]
            intro hget
            rw [beq_iff_eq] at hget
            obtain ⟨t, htt⟩ := (prefix_slash_iff r.path p).mpr ⟨hpre, hget⟩
            rw [hp] at htt
            have hlen := congrArg List.length htt
            simp only [List.length_append, List.length_cons] at hlen
            omega
          · left
            rw [Bool.eq_false_iff, Ne, List.isPrefixOf_iff_prefix]
            exact hpre
      rw [hmc]
      simp
    · rw [if_neg hcond]
      have hmc : matchCond r.path p = true := by
        unfold matchCond
        simp only [Bool.or_eq_true, Bool.and_eq_true]
        left
        refine ⟨by rw [List.isPrefixOf_iff_prefix]; exact ⟨rest, hp.symm⟩, ?_⟩
        push_neg at hcond
        by_cases h1 : r.path = []
        · simp [h1]
        by_cases h2 : r.path.getLast? = some '/'
        · simp [h2]
        · have h3 := hcond h1 h2
          subst h3
          simp [hp]
      rw [hmc]
      simp

/-- Claim C2 counterexample: the rule pattern `/dev/null` does not end in
`/`, the path `/dev` is not equal to the pattern, yet the matcher succeeds
with the rule action instead of returning `A_DEFAULT` — the claim's
"if the pattern does not end in '/', the match succeeds only when p equals
the pattern exactly" is false on the code. -/
theorem C2_counterexample :
    ("/dev/null".toList).getLast? ≠ some '/' ∧
    "/dev".toList ≠ "/dev/null".toList ∧
    match_path_rule ⟨"/dev/null".toList, .A_YES⟩ "/dev".toList = .A_YES := by
  decide

lemma scan_rules_ne_default (rs : List PathRule) (p : List Char) (act : Action)
    (h : act ≠ .A_DEFAULT) : scan_rules rs p act = act := by
  cases rs with
  | nil => rfl
  | cons r rest => simp [scan_rules, h]

/-- Claim C10: a path rule whose pattern is the empty string matches every
path (including the empty path) with the rule's action, and when such a
rule heads the user-rule list its action decides the scan before any later
rule is consulted (`-p` rules always carry a non-DEFAULT action). -/
theorem C10_empty_pattern_decides (act : Action) (rest : List PathRule)
    (p : List Char) (h : act ≠ .A_DEFAULT) :
    match_path_rule ⟨[], act⟩ p = act ∧
    scan_rules (⟨[], act⟩ :: rest) p .A_DEFAULT = act := by
  have hmatch : match_path_rule ⟨[], act⟩ p = act := by
    unfold match_path_rule
    simp [mprLoop]
  refine ⟨hmatch, ?_⟩
  simp only [scan_rules, if_pos rfl, hmatch]
  exact scan_rules_ne_default rest p act h

/-- Witness for C10 at a concrete input: an empty-pattern `no` rule decides
the path `/etc/passwd` even though a later rule would allow it. -/
theorem C10_empty_pattern_decides_witness :
    Action.A_NO ≠ .A_DEFAULT ∧
    (match_path_rule ⟨[], .A_NO⟩ "/etc/passwd".toList = .A_NO ∧
     scan_rules (⟨[], .A_NO⟩ :: [⟨"/etc/".toList, .A_YES⟩]) "/etc/passwd".toList .A_DEFAULT = .A_NO) :=
  ⟨by decide, C10_empty_pattern_decides .A_NO [⟨"/etc/".toList, .A_YES⟩] "/etc/passwd".toList (by decide)⟩

/-! ## The filename canonicaliser `resolv_filename` (box.c:777-817)

The C function rewrites the NUL-terminated buffer in place with a read
index `i`, a write index `j` and a two-value state (`S_START` after an
emitted `/`, `S_CONT` otherwise).  We model the output prefix
`namebuf[0..j)` as a list `out` (everything at index `j` and beyond is dead:
it is either overwritten or cut off by the final `namebuf[j] = 0`), the
remaining input `namebuf[i..]` as a list `s`, and the state as a `Bool`
(`true` = `S_START`).  The `..` unwind `j -= 2; for (; namebuf[j] != '/'; j--);`
repositions `j` at the closest `/` at index ≤ j-2, i.e. the new output is
the longest prefix of `out` that ends just before that `/`. -/

/-- Drop the trailing run of non-`/` characters (the `for (; namebuf[j] != '/'; j--)`
scan, expressed on the kept prefix). -/
def dropWE : List Char → List Char
  | [] => []
  | c :: rest =>
    match dropWE rest with
    | [] => if c = '/' then [c] else []
    | r => c :: r

/-- The `..` unwind of `resolv_filename` (box.c:796-799): step back over the
`/` that `j` points past (`j -= 2` together with dropping the just-read
segment) and then back to the previous `/`, excluded. -/
def unwind (out : List Char) : List Char :=
  (dropWE out.dropLast).dropLast

/-- The lookahead `namebuf[i+1] == '.' && (namebuf[i+2] == '/' || namebuf[i+2] == 0)`
(box.c:794), applied to the input after the current `.` (an empty tail is
the terminating NUL). -/
def dotdotAhead : List Char → Bool
  | d :: rest2 => d = '.' && (rest2.isEmpty || rest2.head? == some '/')
  | [] => false

/-- The main loop of `resolv_filename` (box.c:782-815).  `st = true` is
`S_START`, `st = false` is `S_CONT`.  A `/` is emitted only in state
`S_CONT`; a `.` in state `S_START` followed by `.` and a `/` or the end of
the string consumes the two dots (`i += 2`) and either unwinds the last
segment (`j > 1`) or, at the root, just re-enters `S_START`; every other
character is copied. -/
def resolvAux : List Char → List Char → Bool → List Char
  | [], out, _ => out
  | c :: rest, out, st =>
    if c = '/' then
      if st then resolvAux rest out true
      else resolvAux rest (out ++ ['/']) true
    else if c = '.' ∧ st = true ∧ dotdotAhead rest then
      match rest with
      | _ :: rest2 =>
        if 1 < out.length then resolvAux rest2 (unwind out) false
        else resolvAux rest2 out true
      | [] => out  -- unreachable: dotdotAhead [] = false
    else resolvAux rest (out ++ [c]) false

/-- `resolv_filename` (box.c:777-817): a buffer not starting with `/` is
returned unchanged (`if (namebuf[0] != '/') return;`); otherwise the loop
runs with `i = j = 0` and initial state `S_CONT`. -/
def resolv_filename (s : List Char) : List Char :=
  if s.head? = some '/' then resolvAux s [] false else s

example : resolv_filename "/./".toList = "/./".toList := by decide
example : resolv_filename "/a/..".toList = "".toList := by decide
example : resolv_filename "/a/b/../../c".toList = "/c".toList := by decide
example : resolv_filename "/..".toList = "/".toList := by decide
example : resolv_filename "/../..".toList = "/".toList := by decide
example : resolv_filename "//a//b/".toList = "/a/b/".toList := by decide
example : resolv_filename "/a/./b".toList = "/a/./b".toList := by decide
example : resolv_filename "/x../y/../z".toList = "/x../z".toList := by decide
example : resolv_filename "a/../b".toList = "a/../b".toList := by decide

/-! ### Generic list helpers for the canonicaliser proofs -/

lemma getLast?_eq_some_exists {l : List Char} {a : Char}
    (h : l.getLast? = some a) : ∃ u, l = u ++ [a] := by
  have hne : l ≠ [] := by
    intro hl; subst hl; simp at h
  refine ⟨l.dropLast, ?_⟩
  have := List.dropLast_append_getLast hne
  have hg : l.getLast hne = a := by
    have := List.getLast?_eq_getLast l hne
    rw [this] at h
    exact Option.some.inj h
  rw [← hg]
  exact this.symm

lemma suffix_singleton_iff (x : Char) (l : List Char) :
    [x] <:+ l ↔ l.getLast? = some x := by
  constructor
  · rintro ⟨t, rfl⟩
    exact List.getLast?_concat t
  · intro h
    obtain ⟨u, rfl⟩ := getLast?_eq_some_exists h
    exact ⟨u, rfl⟩

lemma suffix_concat_iff (s l : List Char) (x c : Char) :
    (s ++ [x]) <:+ (l ++ [c]) ↔ x = c ∧ s <:+ l := by
  constructor
  · rintro ⟨t, ht⟩
    rw [← List.append_assoc] at ht
    have hx : x = c := by
      have h1 : ((t ++ s) ++ [x]).getLast? = some x := List.getLast?_concat _
      have h2 : (l ++ [c]).getLast? = some c := List.getLast?_concat _
      rw [ht] at h1
      rw [h1] at h2
      exact Option.some.inj h2
    have hdl : t ++ s = l := by
      have := congrArg List.dropLast ht
      rwa [List.dropLast_concat, List.dropLast_concat] at this
    exact ⟨hx, ⟨t, hdl⟩⟩
  · rintro ⟨rfl, t, rfl⟩
    exact ⟨t, by simp⟩

lemma infix_concat_cases {pat l : List Char} {c : Char}
    (h : pat <:+: (l ++ [c])) : pat <:+: l ∨ pat <:+ (l ++ [c]) := by
  obtain ⟨a, b, hab⟩ := h
  rcases List.eq_nil_or_concat b with rfl | ⟨q, d, rfl⟩
  · right
    exact ⟨a, by simpa using hab⟩
  · left
    rw [List.concat_eq_append] at hab
    have hab' : (a ++ pat ++ q) ++ [d] = l ++ [c] := by
      rw [← hab]; simp
    have := congrArg List.dropLast hab'
    rw [List.dropLast_concat, List.dropLast_concat] at this
    exact ⟨a, q, this⟩

lemma infix_of_infix_prefix {pat l t : List Char} (h : pat <:+: l) :
    pat <:+: (l ++ t) :=
  h.trans (List.prefix_append l t).isInfix

lemma suffix_cons {sfx rest : List Char} (c : Char) (h : sfx <:+ rest) :
    sfx <:+ (c :: rest) := by
  obtain ⟨t, rfl⟩ := h
  exact ⟨c :: t, rfl⟩

lemma infix_cons {pat rest : List Char} (c : Char) (h : pat <:+: rest) :
    pat <:+: (c :: rest) := by
  obtain ⟨a, b, rfl⟩ := h
  exact ⟨c :: a, b, rfl⟩

lemma head?_append_of_ne_nil {l : List Char} (t : List Char) (h : l ≠ []) :
    (l ++ t).head? = l.head? := by
  cases l with
  | nil => exact absurd rfl h
  | cons c cs => simp

/-! ### Structure of `dropWE` and `unwind` -/

lemma dropWE_cons_of_nil {c : Char} {rest : List Char} (hdw : dropWE rest = []) :
    dropWE (c :: rest) = if c = '/' then [c] else [] := by
  simp [dropWE, hdw]

lemma dropWE_cons_of_ne_nil {c : Char} {rest : List Char} (hdw : dropWE rest ≠ []) :
    dropWE (c :: rest) = c :: dropWE rest := by
  cases h : dropWE rest with
  | nil => exact absurd h hdw
  | cons d ds => simp [dropWE, h]

lemma dropWE_decomp (l : List Char) :
    ∃ sfx, l = dropWE l ++ sfx ∧ ∀ c ∈ sfx, c ≠ '/' := by
  induction l with
  | nil => exact ⟨[], rfl, by simp⟩
  | cons c rest ih =>
    obtain ⟨sfx, hrest, hsfx⟩ := ih
    by_cases hdw : dropWE rest = []
    · rw [hdw, List.nil_append] at hrest
      subst hrest
      by_cases hc : c = '/'
      · refine ⟨rest, ?_, hsfx⟩
        rw [dropWE_cons_of_nil hdw, if_pos hc]
        rfl
      · refine ⟨c :: rest, ?_, ?_⟩
        · rw [dropWE_cons_of_nil hdw, if_neg hc]
          rfl
        · intro x hx
          rcases List.mem_cons.mp hx with rfl | hx
          · exact hc
          · exact hsfx x hx
    · refine ⟨sfx, ?_, hsfx⟩
      rw [dropWE_cons_of_ne_nil hdw, List.cons_append, ← hrest]

lemma dropWE_getLast (l : List Char) :
    dropWE l = [] ∨ (dropWE l).getLast? = some '/' := by
  induction l with
  | nil => exact Or.inl rfl
  | cons c rest ih =>
    by_cases hdw : dropWE rest = []
    · by_cases hc : c = '/'
      · right
        rw [dropWE_cons_of_nil hdw, if_pos hc, hc]
        rfl
      · left
        rw [dropWE_cons_of_nil hdw, if_neg hc]
    · right
      rw [dropWE_cons_of_ne_nil hdw]
      rcases ih with h | h
      · exact absurd h hdw
      · rw [show (c :: dropWE rest) = [c] ++ dropWE rest by rfl]
        rwa [List.getLast?_append_of_ne_nil [c] hdw]

lemma dropWE_ne_nil_of_head {l : List Char} (h : l.head? = some '/') :
    dropWE l ≠ [] := by
  cases l with
  | nil => simp at h
  | cons c rest =>
    have hc : c = '/' := by simpa using h
    by_cases hdw : dropWE rest = []
    · rw [dropWE_cons_of_nil hdw, if_pos hc]
      simp
    · rw [dropWE_cons_of_ne_nil hdw]
      simp

lemma dotdotAhead_true {rest : List Char} (h : dotdotAhead rest = true) :
    ∃ r2, rest = '.' :: r2 ∧ (r2 = [] ∨ r2.head? = some '/') := by
  cases rest with
  | nil => simp [dotdotAhead] at h
  | cons d r2 =>
    simp only [dotdotAhead, Bool.and_eq_true, decide_eq_true_eq, Bool.or_eq_true,
      List.isEmpty_iff, beq_iff_eq] at h
    exact ⟨r2, by rw [h.1], h.2⟩

lemma dotdotAhead_false_cons {r2 : List Char} (h : dotdotAhead ('.' :: r2) = false) :
    r2 ≠ [] ∧ r2.head? ≠ some '/' := by
  simp only [dotdotAhead, Bool.and_eq_false_iff, decide_eq_false_iff_not,
    Bool.or_eq_false_iff, beq_eq_false_iff_ne, Ne] at h
  rcases h with h | h
  · exact absurd trivial h
  · exact ⟨by simpa [List.isEmpty_iff] using h.1, h.2⟩

lemma unwind_decomp {out : List Char} (hhead : out.head? = some '/')
    (hlen : 1 < out.length) : ∃ t, out = unwind out ++ '/' :: t := by
  have hne : out ≠ [] := by
    intro h; subst h; simp at hlen
  have hdlne : out.dropLast ≠ [] := by
    intro h
    have := congrArg List.length h
    simp [List.length_dropLast] at this
    omega
  have hdlhead : out.dropLast.head? = some '/' := by
    cases hout : out with
    | nil => exact absurd hout hne
    | cons c cs =>
      cases hcs : cs with
      | nil =>
        subst hout; subst hcs; simp at hlen
      | cons d ds =>
        subst hout; subst hcs
        simpa using hhead
  set m := dropWE out.dropLast with hm
  have hmne : m ≠ [] := dropWE_ne_nil_of_head hdlhead
  have hmlast : m.getLast? = some '/' := by
    rcases dropWE_getLast out.dropLast with h | h
    · exact absurd h hmne
    · exact h
  obtain ⟨u, hu⟩ := getLast?_eq_some_exists hmlast
  obtain ⟨sfx, hsplit, _⟩ := dropWE_decomp out.dropLast
  have houtfull : out = out.dropLast ++ [out.getLast hne] :=
    (List.dropLast_append_getLast hne).symm
  have huw : unwind out = u := by
    rw [unwind, ← hm, hu, List.dropLast_concat]
  refine ⟨sfx ++ [out.getLast hne], ?_⟩
  rw [huw]
  calc out = out.dropLast ++ [out.getLast hne] := houtfull
    _ = (m ++ sfx) ++ [out.getLast hne] := by rw [← hsplit]
    _ = ((u ++ ['/']) ++ sfx) ++ [out.getLast hne] := by rw [← hu]
    _ = u ++ '/' :: (sfx ++ [out.getLast hne]) := by simp

/-! ### Step equations for `resolvAux` -/

lemma step_slash_start (rest out : List Char) :
    resolvAux ('/' :: rest) out true = resolvAux rest out true := by
  rw [resolvAux.eq_def]
  dsimp only
  rw [if_pos rfl, if_pos rfl]

lemma step_slash_cont (rest out : List Char) :
    resolvAux ('/' :: rest) out false = resolvAux rest (out ++ ['/']) true := by
  rw [resolvAux.eq_def]
  dsimp only
  rw [if_pos rfl, if_neg (by simp)]

lemma step_dotdot_unwind (r2 out : List Char)
    (hdd : dotdotAhead ('.' :: r2) = true) (hlen : 1 < out.length) :
    resolvAux ('.' :: '.' :: r2) out true = resolvAux r2 (unwind out) false := by
  rw [resolvAux.eq_def]
  dsimp only
  rw [if_neg (by decide), if_pos ⟨rfl, rfl, hdd⟩]
  exact if_pos hlen

lemma step_dotdot_root (r2 out : List Char)
    (hdd : dotdotAhead ('.' :: r2) = true) (hlen : ¬ 1 < out.length) :
    resolvAux ('.' :: '.' :: r2) out true = resolvAux r2 out true := by
  rw [resolvAux.eq_def]
  dsimp only
  rw [if_neg (by decide), if_pos ⟨rfl, rfl, hdd⟩]
  exact if_neg hlen

lemma step_copy (c : Char) (rest out : List Char) (st : Bool)
    (h1 : ¬ c = '/') (h2 : ¬ (c = '.' ∧ st = true ∧ dotdotAhead rest = true)) :
    resolvAux (c :: rest) out st = resolvAux rest (out ++ [c]) false := by
  rw [resolvAux.eq_def]
  dsimp only
  rw [if_neg h1, if_neg h2]

/-! ### Invariant carried through the canonicaliser loop -/

/-- Invariant of `resolvAux`: `s` is the unread input, `out` the emitted
output, `st` the automaton state (`true` = `S_START`).  The conjuncts say:
the output has no `//` and no `/../` infix; it starts with `/` (when
nonempty); in `S_START` it ends with `/`, in `S_CONT` it does not; if it
ends with `/..` the next input character exists and is not `/` (so the
dangerous `/` append cannot happen next); if it ends with `/.` in `S_CONT`
and the next character is `.`, the character after that is neither `/` nor
the terminator; and the output is empty only when the remaining input is
empty or starts with `/`. -/
structure Inv (s out : List Char) (st : Bool) : Prop where
  noSS : ¬ (['/', '/'] <:+: out)
  noSDDS : ¬ (['/', '.', '.', '/'] <:+: out)
  headSlash : out = [] ∨ out.head? = some '/'
  startSlash : st = true → out.getLast? = some '/'
  contNoSlash : st = false → out = [] ∨ out.getLast? ≠ some '/'
  sufDD : ['/', '.', '.'] <:+ out → st = false ∧ ∃ x xs, s = x :: xs ∧ x ≠ '/'
  sufD : ['/', '.'] <:+ out → st = false → ∀ r2, s = '.' :: r2 →
    r2 ≠ [] ∧ r2.head? ≠ some '/'
  emptyOut : out = [] → s = [] ∨ s.head? = some '/'

/-- What we need of the final output of the canonicaliser loop: no `//`
infix, no `/../` infix, and no trailing `/..`. -/
def GoodOut (r : List Char) : Prop :=
  ¬ (['/', '/'] <:+: r) ∧ ¬ (['/', '.', '.', '/'] <:+: r) ∧ ¬ (['/', '.', '.'] <:+ r)

theorem resolvAux_inv :
    ∀ (n : Nat) (s : List Char), s.length ≤ n → ∀ (out : List Char) (st : Bool),
      Inv s out st → GoodOut (resolvAux s out st) := by
  intro n
  induction n with
  | zero =>
    intro s hs out st hinv
    have hsnil : s = [] := List.eq_nil_of_length_eq_zero (Nat.le_zero.mp hs)
    subst hsnil
    refine ⟨hinv.noSS, hinv.noSDDS, fun h => ?_⟩
    obtain ⟨_, x, xs, hxs, _⟩ := hinv.sufDD h
    cases hxs
  | succ n ih =>
    intro s hs out st hinv
    cases s with
    | nil =>
      refine ⟨hinv.noSS, hinv.noSDDS, fun h => ?_⟩
      obtain ⟨_, x, xs, hxs, _⟩ := hinv.sufDD h
      cases hxs
    | cons c rest =>
      have hlenrest : rest.length ≤ n := by
        simp only [List.length_cons] at hs; omega
      by_cases hc : c = '/'
      · subst hc
        cases st with
        | true =>
          rw [step_slash_start]
          refine ih rest hlenrest out true ⟨hinv.noSS, hinv.noSDDS, hinv.headSlash,
            hinv.startSlash, ?_, ?_, ?_, ?_⟩
          · intro h; simp at h
          · intro h
            obtain ⟨hst, _⟩ := hinv.sufDD h
            simp at hst
          · intro _ h; simp at h
          · intro h
            have := hinv.startSlash rfl
            rw [h] at this
            simp at this
        | false =>
          rw [step_slash_cont]
          refine ih rest hlenrest (out ++ ['/']) true ⟨?_, ?_, ?_, ?_, ?_, ?_, ?_, ?_⟩
          · -- no `//`
            intro h
            rcases infix_concat_cases h with h | h
            · exact hinv.noSS h
            · obtain ⟨_, hsuf⟩ := (suffix_concat_iff ['/'] out '/' '/').mp h
              have hlast := (suffix_singleton_iff '/' out).mp hsuf
              rcases hinv.contNoSlash rfl with h0 | h0
              · subst h0; simp at hlast
              · exact h0 hlast
          · -- no `/../`
            intro h
            rcases infix_concat_cases h with h | h
            · exact hinv.noSDDS h
            · obtain ⟨_, hsuf⟩ := (suffix_concat_iff ['/', '.', '.'] out '/' '/').mp h
              obtain ⟨_, x, xs, hxs, hx⟩ := hinv.sufDD hsuf
              rw [List.cons.injEq] at hxs
              exact hx hxs.1.symm
          · -- head is `/`
            rcases hinv.headSlash with h0 | h0
            · subst h0; right; rfl
            · right
              rw [head?_append_of_ne_nil ['/'] ?hne]
              · exact h0
              · intro hnil; subst hnil; simp at h0
          · intro _; exact List.getLast?_concat out
          · intro h; simp at h
          · intro h
            obtain ⟨heq, _⟩ := (suffix_concat_iff ['/', '.'] out '.' '/').mp h
            simp at heq
          · intro h
            obtain ⟨heq, _⟩ := (suffix_concat_iff ['/'] out '.' '/').mp h
            simp at heq
          · intro h; simp at h
      · by_cases hdd : c = '.' ∧ st = true ∧ dotdotAhead rest = true
        · obtain ⟨hcdot, hstt, hddt⟩ := hdd
          subst hcdot
          subst hstt
          obtain ⟨r2, hr2eq, hr2⟩ := dotdotAhead_true hddt
          subst hr2eq
          have hlenr2 : r2.length ≤ n := by
            simp only [List.length_cons] at hs; omega
          by_cases hlen : 1 < out.length
          · -- the `..` unwind
            rw [step_dotdot_unwind r2 out hddt hlen]
            have houtne : out ≠ [] := by
              intro h0; subst h0; simp at hlen
            have hhead : out.head? = some '/' := by
              rcases hinv.headSlash with h0 | h0
              · exact absurd h0 houtne
              · exact h0
            obtain ⟨t, hdec⟩ := unwind_decomp hhead hlen
            refine ih r2 hlenr2 (unwind out) false ⟨?_, ?_, ?_, ?_, ?_, ?_, ?_, ?_⟩
            · intro h
              exact hinv.noSS (hdec ▸ infix_of_infix_prefix h)
            · intro h
              exact hinv.noSDDS (hdec ▸ infix_of_infix_prefix h)
            · by_cases h0 : unwind out = []
              · exact Or.inl h0
              · right
                have := head?_append_of_ne_nil ('/' :: t) h0
                rw [← hdec] at this
                rw [← this, hhead]
            · intro h; simp at h
            · intro _
              by_cases h0 : unwind out = []
              · exact Or.inl h0
              · right
                intro hlast
                obtain ⟨u, hu⟩ := getLast?_eq_some_exists hlast
                apply hinv.noSS
                refine ⟨u, t, ?_⟩
                rw [hdec, hu]
                simp
            · intro hsuf
              obtain ⟨u, hu⟩ := hsuf
              apply absurd ?_ hinv.noSDDS
              refine ⟨u, t, ?_⟩
              rw [hdec, ← hu]
              simp
            · intro _ _ r2' hr2'
              rw [hr2'] at hr2
              rcases hr2 with h0 | h0
              · cases h0
              · simp at h0
            · intro _
              exact hr2
          · -- the `..` at the root: the output is exactly "/"
            rw [step_dotdot_root r2 out hddt hlen]
            have hlast := hinv.startSlash rfl
            have houtne : out ≠ [] := by
              intro h0; rw [h0] at hlast; simp at hlast
            have hout1 : out = ['/'] := by
              have h1 : out.length = 1 := by
                have := List.length_pos.mpr houtne
                omega
              obtain ⟨a, ha⟩ := List.length_eq_one.mp h1
              rw [ha] at hlast
              simp only [List.getLast?_singleton, Option.some.injEq] at hlast
              rw [ha, hlast]
            subst hout1
            refine ih r2 hlenr2 ['/'] true ⟨?_, ?_, Or.inr rfl, fun _ => rfl, ?_, ?_, ?_, ?_⟩
            · intro h; have := h.length_le; simp at this
            · intro h; have := h.length_le; simp at this
            · intro h; simp at h
            · intro h; have := h.length_le; simp at this
            · intro h; have := h.length_le; simp at this
            · intro h; simp at h
        · -- plain copy of one character
          rw [step_copy c rest out st hc fun h => hdd ⟨h.1, h.2.1, h.2.2⟩]
          have houtne : out ≠ [] := by
            intro h0
            rcases hinv.emptyOut h0 with h1 | h1
            · cases h1
            · simp only [List.head?_cons, Option.some.injEq] at h1
              exact hc h1
          refine ih rest hlenrest (out ++ [c]) false ⟨?_, ?_, ?_, ?_, ?_, ?_, ?_, ?_⟩
          · intro h
            rcases infix_concat_cases h with h | h
            · exact hinv.noSS h
            · obtain ⟨heq, _⟩ := (suffix_concat_iff ['/'] out '/' c).mp h
              exact hc heq.symm
          · intro h
            rcases infix_concat_cases h with h | h
            · exact hinv.noSDDS h
            · obtain ⟨heq, _⟩ := (suffix_concat_iff ['/', '.', '.'] out '/' c).mp h
              exact hc heq.symm
          · right
            rw [head?_append_of_ne_nil [c] houtne]
            rcases hinv.headSlash with h0 | h0
            · exact absurd h0 houtne
            · exact h0
          · intro h; simp at h
          · intro _
            right
            rw [List.getLast?_concat]
            intro h
            exact hc (Option.some.inj h)
          · -- output now ends in `/..`: the next character is not `/`
            intro hsuf
            obtain ⟨heq, hsuf2⟩ := (suffix_concat_iff ['/', '.'] out '.' c).mp hsuf
            cases st with
            | true =>
              exfalso
              have hlast := hinv.startSlash rfl
              obtain ⟨u, hu⟩ := hsuf2
              have : out.getLast? = some '.' := by
                rw [← hu]
                have : u ++ ['/', '.'] = (u ++ ['/']) ++ ['.'] := by simp
                rw [this]
                exact List.getLast?_concat _
              rw [this] at hlast
              simp at hlast
            | false =>
              have hres := hinv.sufD hsuf2 rfl rest (by rw [heq])
              refine ⟨rfl, ?_⟩
              cases rest with
              | nil => exact absurd rfl hres.1
              | cons x xs =>
                refine ⟨x, xs, rfl, ?_⟩
                intro hx
                apply hres.2
                rw [hx]
                rfl
          · -- output now ends in `/.` (in `S_CONT`) and the next char is `.`
            intro hsuf _ r2' hr2'
            obtain ⟨heq, hsuf2⟩ := (suffix_concat_iff ['/'] out '.' c).mp hsuf
            have hlast := (suffix_singleton_iff '/' out).mp hsuf2
            have hstt : st = true := by
              cases st with
              | true => rfl
              | false =>
                rcases hinv.contNoSlash rfl with h0 | h0
                · exact absurd h0 houtne
                · exact absurd hlast h0
            subst hstt
            have hddf : dotdotAhead rest = false := by
              cases h : dotdotAhead rest with
              | false => rfl
              | true => exact absurd ⟨heq.symm, rfl, h⟩ hdd
            rw [hr2'] at hddf
            exact dotdotAhead_false_cons hddf
          · intro h; simp at h

/-! ### The canonicaliser is the identity on its own outputs -/

/-- `startsDD s` holds when the input starts with the `..`-at-a-boundary
pattern that the canonicaliser consumes in state `S_START`. -/
def startsDD : List Char → Bool
  | c :: rest => c = '.' && dotdotAhead rest
  | [] => false

theorem resolvAux_id :
    ∀ (n : Nat) (s : List Char), s.length ≤ n → ∀ (acc : List Char) (st : Bool),
      ¬ (['/', '/'] <:+: s) → ¬ (['/', '.', '.', '/'] <:+: s) →
      ¬ (['/', '.', '.'] <:+ s) →
      (st = true → s.head? ≠ some '/' ∧ startsDD s = false) →
      resolvAux s acc st = acc ++ s := by
  intro n
  induction n with
  | zero =>
    intro s hs acc st _ _ _ _
    have hsnil : s = [] := List.eq_nil_of_length_eq_zero (Nat.le_zero.mp hs)
    subst hsnil
    simp [resolvAux]
  | succ n ih =>
    intro s hs acc st hSS hSDDS hsufDD hstart
    cases s with
    | nil => simp [resolvAux]
    | cons c rest =>
      have hlenrest : rest.length ≤ n := by
        simp only [List.length_cons] at hs; omega
      have hSSr : ¬ (['/', '/'] <:+: rest) := fun h => hSS (infix_cons c h)
      have hSDDSr : ¬ (['/', '.', '.', '/'] <:+: rest) := fun h => hSDDS (infix_cons c h)
      have hsufDDr : ¬ (['/', '.', '.'] <:+ rest) := fun h => hsufDD (suffix_cons c h)
      by_cases hc : c = '/'
      · subst hc
        cases st with
        | true =>
          exact absurd rfl ((hstart rfl).1)
        | false =>
          rw [step_slash_cont]
          rw [ih rest hlenrest (acc ++ ['/']) true hSSr hSDDSr hsufDDr ?_]
          · simp
          · intro _
            constructor
            · cases rest with
              | nil => simp
              | cons d r =>
                intro hh
                have hd : d = '/' := by simpa using hh
                subst hd
                exact hSS ⟨[], r, rfl⟩
            · cases hsd : startsDD rest with
              | false => rfl
              | true =>
                exfalso
                cases rest with
                | nil => simp [startsDD] at hsd
                | cons c' rest' =>
                  simp only [startsDD, Bool.and_eq_true, decide_eq_true_eq] at hsd
                  obtain ⟨hc', hdd'⟩ := hsd
                  subst hc'
                  obtain ⟨r3, hr3eq, hr3⟩ := dotdotAhead_true hdd'
                  subst hr3eq
                  rcases hr3 with rfl | h0
                  · exact hsufDD ⟨[], rfl⟩
                  · cases r3 with
                    | nil => simp at h0
                    | cons e r4 =>
                      have he : e = '/' := by simpa using h0
                      subst he
                      exact hSDDS ⟨[], r4, rfl⟩
      · by_cases hdd : c = '.' ∧ st = true ∧ dotdotAhead rest = true
        · exfalso
          obtain ⟨hcdot, hstt, hddt⟩ := hdd
          have := (hstart hstt).2
          subst hcdot
          rw [show startsDD ('.' :: rest) = ('.' = '.' && dotdotAhead rest) from rfl] at this
          simp [hddt] at this
        · rw [step_copy c rest acc st hc hdd]
          rw [ih rest hlenrest (acc ++ [c]) false hSSr hSDDSr hsufDDr (by simp)]
          simp

/-- Combined: the canonicaliser's output (on an absolute path) is a fixed
point of the canonicaliser, has no `//`, no `/../`, and no trailing
`/..`. -/
theorem resolv_filename_good {p : List Char} (h : p.head? = some '/') :
    GoodOut (resolv_filename p) ∧
    resolv_filename (resolv_filename p) = resolv_filename p := by
  have hres : resolv_filename p = resolvAux p [] false := if_pos h
  have hinv : Inv p [] false := by
    refine ⟨by simp, by simp, Or.inl rfl, by simp, fun _ => Or.inl rfl, ?_, ?_, ?_⟩
    · intro hsuf
      have := hsuf.length_le
      simp at this
    · intro hsuf
      have := hsuf.length_le
      simp at this
    · intro _
      exact Or.inr h
  have hgood : GoodOut (resolvAux p [] false) :=
    resolvAux_inv p.length p (Nat.le_refl _) [] false hinv
  rw [hres]
  refine ⟨hgood, ?_⟩
  unfold resolv_filename
  split
  · exact resolvAux_id (resolvAux p [] false).length _ (Nat.le_refl _) [] false
      hgood.1 hgood.2.1 hgood.2.2 (by simp)
  · rfl

/-- Claim C3 counterexample: the absolute path `/./` is a fixed point of
the canonicaliser, so the canonicalised output still contains a `/./`
segment — the claim's "its output contains ... no `/./` segment" is false
on the code (the source leaves single-`.` segments in place). -/
theorem C3_counterexample :
    ("/./".toList).head? = some '/' ∧
    resolv_filename "/./".toList = "/./".toList ∧
    (['/', '.', '/'] <:+: resolv_filename "/./".toList) := by
  decide

/-- Claim C3 (amended): for every absolute path (a buffer starting with
`/`), the canonicaliser is idempotent and its output contains no `//`
substring; the `/./`-freedom conjunct of the original claim is dropped
(single-`.` segments are preserved by the code). -/
theorem C3_canonicaliser_idempotent_no_doubleslash (p : List Char)
    (h : p.head? = some '/') :
    resolv_filename (resolv_filename p) = resolv_filename p ∧
    ¬ (['/', '/'] <:+: resolv_filename p) := by
  obtain ⟨hgood, hid⟩ := resolv_filename_good h
  exact ⟨hid, hgood.1⟩

/-- Witness for the amended C3 at a concrete absolute path with repeated
slashes and `..` segments. -/
theorem C3_canonicaliser_idempotent_no_doubleslash_witness :
    ("//a//b/../c".toList).head? = some '/' ∧
    (resolv_filename (resolv_filename "//a//b/../c".toList) =
       resolv_filename "//a//b/../c".toList ∧
     ¬ (['/', '/'] <:+: resolv_filename "//a//b/../c".toList)) :=
  ⟨by decide,
   C3_canonicaliser_idempotent_no_doubleslash "//a//b/../c".toList (by decide)⟩

/-! ## The filename validator `valid_filename` (box.c:819-876)

The validator is modelled as a function of the already-read name: the C
code first pages the NUL-terminated string in from the child's memory; the
claims about the paged reader itself are not in scope here.  The level-0
check precedes that read in the source, which is reflected here by the
result being independent of `name` (the level-0 theorem quantifies over
every name). -/

/-- Outcome of `valid_filename`: return normally, or abort the run via
`err` with a two-letter status code and a message. -/
inductive VFRes where
  | ok
  | deny (status : String) (message : String)
deriving DecidableEq, Repr

/-- `valid_filename` (box.c:819-876), after the name has been read.
`file_access` is a C `int` (`atol` can produce any value, so it is an
`Int`).  Steps, in source order: level 0 denies; level ≥ 9 permits (this
happens before the read in C); level ≥ 4 permits; level ≥ 2 permits a name
with no `/` that is not `..`; otherwise the name is canonicalised, a
remaining `..` substring forces `A_NO` (`strstr(namebuf, "..")`), user
rules are scanned while the action is `A_DEFAULT`, built-in rules likewise
when level ≥ 3, and anything but `A_YES` is denied with `FA`. -/
def valid_filename (file_access : Int) (name : List Char)
    (user_rules : List PathRule) : VFRes :=
  if file_access = 0 then .deny "FA" "File access forbidden"
  else if 9 ≤ file_access then .ok
  else if 4 ≤ file_access then .ok
  else if 2 ≤ file_access ∧ ¬ ('/' ∈ name) ∧ name ≠ ['.', '.'] then .ok
  else
    let resolved := resolv_filename name
    let act0 : Action := if ['.', '.'] <:+: resolved then .A_NO else .A_DEFAULT
    let act1 := scan_rules user_rules resolved act0
    let act2 :=
      if 3 ≤ file_access then scan_rules default_path_rules resolved act1 else act1
    if act2 ≠ .A_YES then
      .deny "FA" ("Forbidden access to file " ++ String.mk resolved)
    else .ok

example : valid_filename 0 "/etc/passwd".toList [] =
    .deny "FA" "File access forbidden" := by decide
example : valid_filename 9 "anything".toList [] = .ok := by decide
example : valid_filename 4 "/secret".toList [] = .ok := by decide
example : valid_filename 2 "data.txt".toList [] = .ok := by decide
example : valid_filename 2 "..".toList [] ≠ .ok := by decide
example : valid_filename 3 "/etc/passwd".toList [] = .ok := by decide
example : valid_filename 1 "/etc/passwd".toList [] ≠ .ok := by decide
example : valid_filename 3 "a/../b".toList [] ≠ .ok := by decide
example : valid_filename 3 "/tmp/../etc/passwd".toList [] = .ok := by decide

/-- Claim C1: (1) at file-access level 0 the validator denies with code
`FA` for every name (the result does not depend on the name, which the C
code has not even read at that point); (2) at levels 2 and 3 a name with
no `/` that is not `..` is permitted whatever the path rules are; (3) in
the remaining cases below level 4 the name is canonicalised, the rules are
scanned (built-ins only from level 3), and any final action other than
`A_YES` is denied with code `FA`. -/
theorem C1_valid_filename_spec :
    (∀ (name : List Char) (rules : List PathRule),
        valid_filename 0 name rules = .deny "FA" "File access forbidden") ∧
    (∀ (fa : Int) (name : List Char) (rules : List PathRule),
        2 ≤ fa → fa < 4 → ¬ ('/' ∈ name) → name ≠ ['.', '.'] →
        valid_filename fa name rules = .ok) ∧
    (∀ (fa : Int) (name : List Char) (rules : List PathRule),
        fa ≠ 0 → fa < 4 → ¬ (2 ≤ fa ∧ ¬ ('/' ∈ name) ∧ name ≠ ['.', '.']) →
        valid_filename fa name rules =
          (let resolved := resolv_filename name
           let act0 : Action :=
             if ['.', '.'] <:+: resolved then .A_NO else .A_DEFAULT
           let act1 := scan_rules rules resolved act0
           let act2 :=
             if 3 ≤ fa then scan_rules default_path_rules resolved act1 else act1
           if act2 = .A_YES then .ok
           else .deny "FA" ("Forbidden access to file " ++ String.mk resolved))) := by
  refine ⟨?_, ?_, ?_⟩
  · intro name rules
    unfold valid_filename
    rw [if_pos rfl]
  · intro fa name rules h2 h4 hslash hdd
    unfold valid_filename
    rw [if_neg (by omega), if_neg (by omega), if_neg (by omega),
      if_pos ⟨h2, hslash, hdd⟩]
  · intro fa name rules h0 h4 hlocal
    unfold valid_filename
    rw [if_neg h0, if_neg (by omega), if_neg (by omega), if_neg hlocal]
    dsimp only
    by_cases hy :
        (if 3 ≤ fa then
            scan_rules default_path_rules (resolv_filename name)
              (scan_rules rules (resolv_filename name)
                (if ['.', '.'] <:+: resolv_filename name then .A_NO else .A_DEFAULT))
          else
            scan_rules rules (resolv_filename name)
              (if ['.', '.'] <:+: resolv_filename name then .A_NO else .A_DEFAULT)) =
          Action.A_YES
    · rw [if_neg (by simpa using hy), if_pos hy]
    · rw [if_pos (by simpa using hy), if_neg hy]

/-- Witness for C1 at concrete inputs: level 0 denies `..`; level 2
permits the CWD-local name `abc` despite a user `no` rule; level 1 with no
user rules denies `/etc/passwd` (final action `A_DEFAULT ≠ A_YES`). -/
theorem C1_valid_filename_spec_witness :
    valid_filename 0 ['.', '.'] [] = .deny "FA" "File access forbidden" ∧
    valid_filename 2 "abc".toList [⟨[], .A_NO⟩] = .ok ∧
    valid_filename 1 "/etc/passwd".toList [] =
      .deny "FA" ("Forbidden access to file " ++ String.mk "/etc/passwd".toList) := by
  refine ⟨C1_valid_filename_spec.1 ['.', '.'] [], ?_, ?_⟩
  · exact C1_valid_filename_spec.2.1 2 "abc".toList [⟨[], .A_NO⟩]
      (by decide) (by decide) (by decide) (by decide)
  · have h := C1_valid_filename_spec.2.2 1 "/etc/passwd".toList []
      (by decide) (by decide) (by decide)
    rw [h]
    decide

/-! ## Timeouts: `check_timeout` (box.c:961-1001)

The C function reads the clock and `/proc/<pid>/stat` itself; here the
measured wall-clock and CPU milliseconds are parameters and the function
returns the fatal `TO` message raised by `err`, if any.  A zero
`wall_timeout` (resp. `timeout`) skips the corresponding check entirely
(`if (wall_timeout) { ... }` / `if (timeout) { ... }`); the CPU kill
requires `ms > timeout && ms > extra_timeout`. -/

def check_timeout (wall_timeout timeout extra_timeout wall_ms cpu_ms : Int) :
    Option String :=
  if wall_timeout ≠ 0 ∧ wall_ms > wall_timeout then
    some "TO: Time limit exceeded (wall clock)"
  else if timeout ≠ 0 ∧ cpu_ms > timeout ∧ cpu_ms > extra_timeout then
    some "TO: Time limit exceeded"
  else none

/-- Claim C6: (1) with the wall check passing (disabled or not exceeded),
a run whose CPU time is over `timeout` but within `extra_timeout` is not
killed; (2) the CPU `TO` fires only when the CPU time exceeds both
`timeout` and `extra_timeout` (and `timeout` is set); (3) the wall-clock
`TO` fires exactly when `wall_timeout` is nonzero and exceeded — so a
`wall_timeout` of 0 disables the wall check rather than expiring
immediately. -/
theorem C6_check_timeout_spec :
    (∀ wt t xt w c : Int, (wt = 0 ∨ w ≤ wt) → t ≠ 0 → t < c → c ≤ xt →
        check_timeout wt t xt w c = none) ∧
    (∀ wt t xt w c : Int,
        check_timeout wt t xt w c = some "TO: Time limit exceeded" →
        t ≠ 0 ∧ t < c ∧ xt < c) ∧
    (∀ wt t xt w c : Int,
        check_timeout wt t xt w c = some "TO: Time limit exceeded (wall clock)" ↔
        wt ≠ 0 ∧ wt < w) := by
  refine ⟨?_, ?_, ?_⟩
  · intro wt t xt w c hw _ _ hxt
    unfold check_timeout
    rw [if_neg (by omega), if_neg (by omega)]
  · intro wt t xt w c h
    unfold check_timeout at h
    by_cases hw : wt ≠ 0 ∧ w > wt
    · rw [if_pos hw] at h
      exact absurd (Option.some.inj h) (by decide)
    · rw [if_neg hw] at h
      by_cases hc : t ≠ 0 ∧ c > t ∧ c > xt
      · exact ⟨hc.1, hc.2.1, hc.2.2⟩
      · rw [if_neg hc] at h
        cases h
  · intro wt t xt w c
    constructor
    · intro h
      unfold check_timeout at h
      by_cases hw : wt ≠ 0 ∧ w > wt
      · exact ⟨hw.1, hw.2⟩
      · rw [if_neg hw] at h
        by_cases hc : t ≠ 0 ∧ c > t ∧ c > xt
        · rw [if_pos hc] at h
          exact absurd (Option.some.inj h) (by decide)
        · rw [if_neg hc] at h
          cases h
    · intro h
      unfold check_timeout
      rw [if_pos ⟨h.1, h.2⟩]

/-- Witness for C6: CPU time 1500 ms between `timeout = 1000` and
`extra_timeout = 3000` is not killed; wall timeout 0 never fires even
with a huge elapsed wall time. -/
theorem C6_check_timeout_spec_witness :
    check_timeout 0 1000 3000 999999 1500 = none ∧
    check_timeout 0 1000 3000 5 2000 = none ∧
    ¬ (check_timeout 0 0 0 999999 0 =
        some "TO: Time limit exceeded (wall clock)") := by
  refine ⟨?_, ?_, ?_⟩
  · exact C6_check_timeout_spec.1 0 1000 3000 999999 1500
      (Or.inl rfl) (by decide) (by decide) (by decide)
  · exact C6_check_timeout_spec.1 0 1000 3000 5 2000
      (Or.inl rfl) (by decide) (by decide) (by decide)
  · intro h
    have := (C6_check_timeout_spec.2.2 0 0 0 999999 0).mp h
    exact this.1 rfl

/-! ## Environment rules (box.c:478-609)

`struct env_rule`: `val = NULL` (here `none`) inherits from the parent
environment, `val = ""` (here `some []`) unsets, otherwise the variable is
set.  `apply_env_rule` first removes the first matching entry by swapping
the last array slot into the hole (`env[pos] = env[--size]`), then appends
the new value, if any, at the end. -/

structure EnvRule where
  var : List Char
  val : Option (List Char)
deriving DecidableEq, Repr

/-- `match_env_var` (box.c:516-522): the entry starts with the rule's
variable name followed by `=`. -/
def match_env_var (entry : List Char) (r : EnvRule) : Bool :=
  r.var.isPrefixOf entry && entry.get? r.var.length == some '='

/-- The removal loop of `apply_env_rule` (box.c:527-536): find the first
matching entry; replace it by the (old) last entry and drop the last slot.
Removing the last entry itself leaves the rest unchanged. -/
def srf (r : EnvRule) : List (List Char) → List (List Char)
  | [] => []
  | e :: rest =>
    if match_env_var e r then
      match rest.getLast? with
      | none => []
      | some l => l :: rest.dropLast
    else e :: srf r rest

/-- `apply_env_rule` (box.c:524-559). `parent` is the `environ` of the
sandbox process, scanned (first match) when the rule inherits. -/
def apply_env_rule (env : List (List Char)) (parent : List (List Char))
    (r : EnvRule) : List (List Char) :=
  let env1 := srf r env
  match r.val with
  | some v => if v = [] then env1 else env1 ++ [r.var ++ '=' :: v]
  | none =>
    match parent.find? (fun e => match_env_var e r) with
    | some e => env1 ++ [e]
    | none => env1

/-- `setup_environment`'s rule loop (box.c:597-599): apply the rules in
order to the working environment. -/
def apply_env_rules (env parent : List (List Char)) (rules : List EnvRule) :
    List (List Char) :=
  rules.foldl (fun e r => apply_env_rule e parent r) env

example :
    apply_env_rules [] []
      [⟨['A'], some ['1']⟩, ⟨['A'], some ['2']⟩] = [['A', '=', '2']] := by decide
example :
    apply_env_rules [['A', '=', '0'], ['B', '=', '1']] []
      [⟨['A'], some []⟩] = [['B', '=', '1']] := by decide

/-- Matching an environment entry against a variable name: `match_env_var`
only looks at the rule's variable, never its value. -/
def mVar (A : List Char) (e : List Char) : Bool :=
  match_env_var e ⟨A, none⟩

lemma match_env_var_eq_mVar (e : List Char) (r : EnvRule) :
    match_env_var e r = mVar r.var e := rfl

lemma mVar_self (A v : List Char) : mVar A (A ++ '=' :: v) = true := by
  unfold mVar match_env_var
  simp only [Bool.and_eq_true, List.isPrefixOf_iff_prefix, beq_iff_eq]
  refine ⟨⟨'=' :: v, rfl⟩, ?_⟩
  rw [List.get?_append_right (Nat.le_refl _)]
  simp

lemma srf_filter {A : List Char} {r : EnvRule} (hr : r.var = A) :
    ∀ env : List (List Char), (env.filter (mVar A)).length ≤ 1 →
      (srf r env).filter (mVar A) = [] := by
  intro env
  induction env with
  | nil => intro _; rfl
  | cons e rest ih =>
    intro hcount
    by_cases hm : match_env_var e r = true
    · have hme : mVar A e = true := by rw [← hr, ← match_env_var_eq_mVar]; exact hm
      rw [List.filter_cons_of_pos hme] at hcount
      simp only [List.length_cons] at hcount
      have hrest : rest.filter (mVar A) = [] := by
        have : (rest.filter (mVar A)).length = 0 := by omega
        exact List.eq_nil_of_length_eq_zero this
      have hnone : ∀ x ∈ rest, ¬ mVar A x = true := List.filter_eq_nil.mp hrest
      unfold srf
      rw [if_pos hm]
      cases hgl : rest.getLast? with
      | none => rfl
      | some l =>
        have hl : ¬ mVar A l = true := hnone l (List.mem_of_mem_getLast? hgl)
        rw [List.filter_cons_of_neg hl]
        rw [List.filter_eq_nil]
        intro x hx
        exact hnone x ((List.dropLast_sublist rest).subset hx)
    · have hme : ¬ mVar A e = true := by rw [← hr, ← match_env_var_eq_mVar]; exact hm
      rw [List.filter_cons_of_neg hme] at hcount
      unfold srf
      rw [if_neg hm, List.filter_cons_of_neg hme]
      exact ih hcount

lemma apply_filter_set {A v : List Char} (hv : v ≠ []) (env parent : List (List Char))
    (hcount : (env.filter (mVar A)).length ≤ 1) :
    (apply_env_rule env parent ⟨A, some v⟩).filter (mVar A) = [A ++ '=' :: v] := by
  have h1 : (srf ⟨A, some v⟩ env).filter (mVar A) = [] :=
    @srf_filter A ⟨A, some v⟩ rfl env hcount
  unfold apply_env_rule
  dsimp only
  rw [if_neg hv, List.filter_append, h1]
  simp [mVar_self]

lemma apply_filter_unset (A : List Char) (env parent : List (List Char))
    (hcount : (env.filter (mVar A)).length ≤ 1) :
    apply_env_rule env parent ⟨A, some []⟩ = srf ⟨A, some []⟩ env ∧
    (apply_env_rule env parent ⟨A, some []⟩).filter (mVar A) = [] := by
  have heq : apply_env_rule env parent ⟨A, some []⟩ = srf ⟨A, some []⟩ env := by
    unfold apply_env_rule
    dsimp only
    rw [if_pos rfl]
  refine ⟨heq, ?_⟩
  rw [heq]
  have h1 : (srf ⟨A, some []⟩ env).filter (mVar A) = [] :=
    @srf_filter A ⟨A, some []⟩ rfl env hcount
  exact h1

/-- Claim C7: (1) with no inherit rules, last-write-wins — applying
`A=v1` then `A=v2` (`v2` nonempty) to a working environment with at most
one entry for `A` leaves exactly one entry for `A`, namely `A=v2`;
(2) a rule with the empty value removes the existing entry for the
variable and appends nothing, leaving the variable unset. -/
theorem C7_env_last_write_wins :
    (∀ (env parent : List (List Char)) (A v1 v2 : List Char), v2 ≠ [] →
        (env.filter (mVar A)).length ≤ 1 →
        (apply_env_rules env parent [⟨A, some v1⟩, ⟨A, some v2⟩]).filter (mVar A) =
          [A ++ '=' :: v2]) ∧
    (∀ (env parent : List (List Char)) (A : List Char),
        (env.filter (mVar A)).length ≤ 1 →
        apply_env_rule env parent ⟨A, some []⟩ = srf ⟨A, some []⟩ env ∧
        (apply_env_rule env parent ⟨A, some []⟩).filter (mVar A) = []) := by
  constructor
  · intro env parent A v1 v2 hv2 hcount
    have hstep : apply_env_rules env parent [⟨A, some v1⟩, ⟨A, some v2⟩] =
        apply_env_rule (apply_env_rule env parent ⟨A, some v1⟩) parent
          ⟨A, some v2⟩ := rfl
    rw [hstep]
    have hcount1 :
        ((apply_env_rule env parent ⟨A, some v1⟩).filter (mVar A)).length ≤ 1 := by
      by_cases hv1 : v1 = []
      · subst hv1
        rw [(apply_filter_unset A env parent hcount).2]
        simp
      · rw [apply_filter_set hv1 env parent hcount]
        simp
    exact apply_filter_set hv2 (apply_env_rule env parent ⟨A, some v1⟩) parent hcount1
  · intro env parent A hcount
    exact apply_filter_unset A env parent hcount

/-- Witness for C7 at concrete inputs: applying `A=1` then `A=2` to the
environment `[B=0]` yields exactly one `A` entry, `A=2`; applying `A=`
(empty value) to `[A=0, B=1]` unsets `A` and appends nothing. -/
theorem C7_env_last_write_wins_witness :
    (apply_env_rules [['B', '=', '0']] [] [⟨['A'], some ['1']⟩, ⟨['A'], some ['2']⟩]).filter
        (mVar ['A']) = [['A', '=', '2']] ∧
    apply_env_rule [['A', '=', '0'], ['B', '=', '1']] [] ⟨['A'], some []⟩ =
        srf ⟨['A'], some []⟩ [['A', '=', '0'], ['B', '=', '1']] ∧
    (apply_env_rule [['A', '=', '0'], ['B', '=', '1']] [] ⟨['A'], some []⟩).filter
        (mVar ['A']) = [] := by
  refine ⟨?_, ?_⟩
  · have h := C7_env_last_write_wins.1 [['B', '=', '0']] [] ['A'] ['1'] ['2']
      (by decide) (by decide)
    simpa using h
  · exact C7_env_last_write_wins.2 [['A', '=', '0'], ['B', '=', '1']] [] ['A']
      (by decide)

/-! ## Syscall classification and the keeper loop (box.c:878-1216)

`arg_t` is `uint64_t` on the `CONFIG_BOX_KERNEL_AMD64` build, so the
sentinel `~(arg_t)0` written into the syscall-number register on denial is
`2^64 - 1`. -/

/-- `~(arg_t)0`. -/
def SENT : Nat := 2 ^ 64 - 1

/-- One entry of `syscall_action`: the primary action (`A_ACTION_MASK`
part) together with the flag bits `A_NO_RETVAL`, `A_SAMPLE_MEM`,
`A_LIBERAL`. -/
structure SyscallAct where
  base : Action
  no_retval : Bool
  sample_mem : Bool
  liberal : Bool
deriving DecidableEq, Repr

/-- The zero byte `A_DEFAULT` (all flag bits clear). -/
def A0 : SyscallAct := ⟨.A_DEFAULT, false, false, false⟩

/-- The ambient state read by `valid_syscall`: the syscall table (the C
lookup `(sys < NUM_ACTIONS) ? syscall_action[sys] : A_DEFAULT` is folded
into a total function), the filter level, the child's pid, and the state
used by the filename check — the file-access level, the user path rules,
and the NUL-terminated string at each child address (`read_user_mem`). -/
structure VSCtx where
  table : Nat → SyscallAct
  filter_syscalls : Int
  box_pid : Int
  file_access : Int
  user_rules : List PathRule
  mem_string : Int → List Char

/-- Steps 1-3 of the lookup (box.c:882-889): fetch the table entry and
revert a `A_LIBERAL` entry to `A_DEFAULT` unless the filter level is 1. -/
def effective_action (ctx : VSCtx) (sys : Nat) : SyscallAct :=
  let act := ctx.table sys
  if act.liberal ∧ ctx.filter_syscalls ≠ 1 then A0 else act

/-- Result of `valid_syscall` (box.c:879-922): a non-negative action
(allow), `-1` (deny), or a fatal `err` exit — which writes the given meta
entries first, then `status:<code>` and `message:<msg>`. -/
inductive VSRes where
  | allow (act : SyscallAct)
  | deny
  | fatal (pre : List String) (status : String) (message : String)
deriving DecidableEq, Repr

/-- `valid_syscall` (box.c:879-922).  `A_YES` and `A_FILENAME` return the
action (the latter after the filename check, whose failure aborts);
`A_NO` denies; otherwise `kill`/`tgkill` aimed at the child's own pid emit
`exitsig:<sig>` and abort with `SG`, and everything else is denied. -/
def valid_syscall (ctx : VSCtx) (sys : Nat) (arg1 arg2 arg3 : Int)
    (nrKill nrTgkill : Nat) : VSRes :=
  let act := effective_action ctx sys
  match act.base with
  | .A_YES => .allow act
  | .A_NO => .deny
  | .A_FILENAME =>
    match valid_filename ctx.file_access (ctx.mem_string arg1) ctx.user_rules with
    | .ok => .allow act
    | .deny code msg => .fatal [] code msg
  | .A_DEFAULT =>
    if sys = nrKill then
      (if arg1 = ctx.box_pid then
        .fatal ["exitsig:" ++ toString arg2 ++ "\n"] "SG"
          ("Committed suicide by signal " ++ toString arg2)
      else .deny)
    else if sys = nrTgkill then
      (if arg1 = ctx.box_pid ∧ arg2 = ctx.box_pid then
        .fatal ["exitsig:" ++ toString arg3 ++ "\n"] "SG"
          ("Committed suicide by signal " ++ toString arg3)
      else .deny)
    else .deny

/-- Claim C8: after execve, a `kill` whose first argument is the child's
own pid — or a `tgkill` whose first two arguments both are — is
intercepted: the keeper writes `exitsig:<sig>` (the signal from the call
arguments) to the meta file and aborts the run with status `SG`.  The
hypothesis that the effective table action of the syscall is `A_DEFAULT`
holds for `kill`/`tgkill` under the built-in table (box.c:239-349 assigns
neither), and `nrKill ≠ nrTgkill` on every supported architecture. -/
theorem C8_self_kill_intercepted :
    (∀ (ctx : VSCtx) (a1 a2 a3 : Int) (nrKill nrTgkill : Nat),
        (effective_action ctx nrKill).base = .A_DEFAULT →
        a1 = ctx.box_pid →
        valid_syscall ctx nrKill a1 a2 a3 nrKill nrTgkill =
          .fatal ["exitsig:" ++ toString a2 ++ "\n"] "SG"
            ("Committed suicide by signal " ++ toString a2)) ∧
    (∀ (ctx : VSCtx) (a1 a2 a3 : Int) (nrKill nrTgkill : Nat),
        nrTgkill ≠ nrKill →
        (effective_action ctx nrTgkill).base = .A_DEFAULT →
        a1 = ctx.box_pid → a2 = ctx.box_pid →
        valid_syscall ctx nrTgkill a1 a2 a3 nrKill nrTgkill =
          .fatal ["exitsig:" ++ toString a3 ++ "\n"] "SG"
            ("Committed suicide by signal " ++ toString a3)) := by
  constructor
  · intro ctx a1 a2 a3 nrKill nrTgkill hbase hpid
    unfold valid_syscall
    dsimp only
    rw [hbase]
    dsimp only
    rw [if_pos rfl, if_pos hpid]
  · intro ctx a1 a2 a3 nrKill nrTgkill hne hbase hpid1 hpid2
    unfold valid_syscall
    dsimp only
    rw [hbase]
    dsimp only
    rw [if_neg hne, if_pos rfl, if_pos ⟨hpid1, hpid2⟩]

/-- Witness for C8 with the amd64 syscall numbers (`kill` = 62,
`tgkill` = 234), an all-`A_DEFAULT` table, pid 100, and `SIGTERM` (15). -/
theorem C8_self_kill_intercepted_witness :
    valid_syscall ⟨fun _ => A0, 2, 100, 0, [], fun _ => []⟩ 62 100 15 0 62 234 =
      .fatal ["exitsig:15\n"] "SG" "Committed suicide by signal 15" ∧
    valid_syscall ⟨fun _ => A0, 2, 100, 0, [], fun _ => []⟩ 234 100 100 15 62 234 =
      .fatal ["exitsig:15\n"] "SG" "Committed suicide by signal 15" := by
  constructor
  · have h := C8_self_kill_intercepted.1 ⟨fun _ => A0, 2, 100, 0, [], fun _ => []⟩
      100 15 0 62 234 (by decide) rfl
    rw [h]
    decide
  · have h := C8_self_kill_intercepted.2 ⟨fun _ => A0, 2, 100, 0, [], fun _ => []⟩
      100 100 15 62 234 (by decide) (by decide) rfl rfl
    rw [h]
    decide

/-! ## The keeper's syscall-entry and syscall-exit handlers
(box.c:1140-1191) -/

/-- The 64-bit `execve` number, `NATIVE_NR_execve` (box.c:35). -/
def NATIVE_NR_execve : Nat := 59

/-- Keeper state across syscall stops: `exec_seen`, `syscall_count`, and
the per-call `last_act` and `last_sys`. -/
structure KS where
  exec_seen : Bool
  syscall_count : Nat
  last_act : SyscallAct
  last_sys : Nat
deriving DecidableEq, Repr

/-- Observable actions of the entry handler, in program order: the
`ptrace(PTRACE_SETREGS)` rewrite of the syscall-number register
(`set_syscall_nr`, box.c:718-725), meta-file writes, the fatal `err`
exit, and the memory-peak sample. -/
inductive Event where
  | setSysNr (n : Nat)
  | metaWrite (line : String)
  | errExit (status : String) (message : String)
  | sampleMem
deriving DecidableEq, Repr

/-- The syscall-entry arm of `boxkeeper` (box.c:1140-1171), given the
classification result `vs` of `valid_syscall`: before `exec_seen` every
call is trusted (and `execve` sets the flag); an allowed call bumps the
count, records the action, and samples memory when `A_SAMPLE_MEM`; a
denied call first rewrites the syscall number to `~0` and then aborts
with `FO`.  Returns the emitted events in order and the successor state
(`none` when the keeper exits). -/
def entry_step (st : KS) (sys : Nat) (vs : VSRes) (sysname : String) :
    List Event × Option KS :=
  if st.exec_seen = false then
    ([], some ⟨decide (sys = NATIVE_NR_execve), st.syscall_count, st.last_act, sys⟩)
  else
    match vs with
    | .allow a =>
      ((if a.sample_mem then [.sampleMem] else []),
       some { exec_seen := st.exec_seen, syscall_count := st.syscall_count + 1,
              last_act := a, last_sys := sys })
    | .deny =>
      ([.setSysNr SENT, .errExit "FO" ("Forbidden syscall " ++ sysname)], none)
    | .fatal pre stat msg =>
      (pre.map .metaWrite ++ [.errExit stat msg], none)

/-- Claim C5: whenever the classifier denies at an entry stop after
execve, the keeper's entry handler first performs the register write of
the sentinel `~0` and only then raises the `FO` error: the rewrite is the
first emitted event and precedes the `errExit` event. -/
theorem C5_deny_rewrites_sentinel_before_FO (st : KS) (sys : Nat) (name : String)
    (hexec : st.exec_seen = true) :
    entry_step st sys .deny name =
      ([.setSysNr SENT, .errExit "FO" ("Forbidden syscall " ++ name)], none) ∧
    (entry_step st sys .deny name).1.head? = some (.setSysNr SENT) := by
  have hstep : entry_step st sys .deny name =
      ([.setSysNr SENT, .errExit "FO" ("Forbidden syscall " ++ name)], none) := by
    unfold entry_step
    rw [if_neg (by rw [hexec]; simp)]
  refine ⟨hstep, ?_⟩
  rw [hstep]
  rfl

/-- Witness for C5 at a concrete state and syscall (`sysinfo`, amd64
number 99). -/
theorem C5_deny_rewrites_sentinel_before_FO_witness :
    entry_step ⟨true, 3, A0, 0⟩ 99 .deny "sysinfo" =
      ([.setSysNr SENT, .errExit "FO" "Forbidden syscall sysinfo"], none) ∧
    (entry_step ⟨true, 3, A0, 0⟩ 99 .deny "sysinfo").1.head? =
      some (.setSysNr SENT) :=
  C5_deny_rewrites_sentinel_before_FO ⟨true, 3, A0, 0⟩ 99 "sysinfo" rfl

/-- The syscall-exit arm of `boxkeeper` (box.c:1173-1191): an observed
number equal to the sentinel `~0` is accepted only for `A_NO_RETVAL`
calls (otherwise `XX: Syscall does not return, but it should`); any other
observed number must equal the remembered `last_sys` (otherwise
`XX: Mismatched syscall entry/exit`).  Returns the fatal
`(status, message)` if the keeper aborts. -/
def syscall_exit_check (sys last_sys : Nat) (last_act_no_retval : Bool) :
    Option (String × String) :=
  if sys = SENT then
    (if ¬ last_act_no_retval then
      some ("XX", "Syscall does not return, but it should")
    else none)
  else if sys ≠ last_sys then some ("XX", "Mismatched syscall entry/exit")
  else none

/-- Claim C4 counterexample: at an exit stop whose observed number is the
sentinel while the remembered entry (`last_sys = 0`, i.e. `read`) did not
have `NO_RETURN`, the observed number differs from `last_sys` and the run
does abort — but with the message `Syscall does not return, but it
should`, not the claimed `XX: Mismatched syscall entry/exit`. -/
theorem C4_counterexample :
    SENT ≠ 0 ∧
    syscall_exit_check SENT 0 false ≠ none ∧
    syscall_exit_check SENT 0 false ≠
      some ("XX", "Mismatched syscall entry/exit") := by
  decide

/-- Claim C4 (amended): with `NO_RETURN` a sentinel exit is accepted; a
non-sentinel observed number must equal `last_sys`, any such mismatch
aborting with `XX: Mismatched syscall entry/exit`; a sentinel observed
number without `NO_RETURN` also aborts fatally, but with
`XX: Syscall does not return, but it should`. -/
theorem C4_exit_check_characterization (sys last_sys : Nat) (noret : Bool) :
    (syscall_exit_check sys last_sys noret = none ↔
      ((sys = SENT ∧ noret = true) ∨ (sys ≠ SENT ∧ sys = last_sys))) ∧
    (sys = SENT → noret = false →
      syscall_exit_check sys last_sys noret =
        some ("XX", "Syscall does not return, but it should")) ∧
    (sys ≠ SENT → sys ≠ last_sys →
      syscall_exit_check sys last_sys noret =
        some ("XX", "Mismatched syscall entry/exit")) := by
  refine ⟨?_, ?_, ?_⟩
  · unfold syscall_exit_check
    by_cases hs : sys = SENT
    · rw [if_pos hs]
      cases noret with
      | true => simp [hs]
      | false => simp [hs]
    · rw [if_neg hs]
      by_cases hl : sys = last_sys
      · rw [if_neg (by simpa using hl)]
        constructor
        · intro _
          exact Or.inr ⟨hs, hl⟩
        · intro _
          rfl
      · rw [if_pos hl]
        simp [hs, hl]
  · intro hs hn
    unfold syscall_exit_check
    rw [if_pos hs, if_pos (by rw [hn]; simp)]
  · intro hs hl
    unfold syscall_exit_check
    rw [if_neg hs, if_pos hl]

/-- Witness for the amended C4: a `NO_RETURN` sentinel exit is accepted
(`rt_sigreturn`-style), and a mismatched ordinary exit (5 after 7) aborts
with the mismatch message. -/
theorem C4_exit_check_characterization_witness :
    syscall_exit_check SENT 0 true = none ∧
    syscall_exit_check 5 7 false = some ("XX", "Mismatched syscall entry/exit") :=
  ⟨(C4_exit_check_characterization SENT 0 true).1.mpr (Or.inl ⟨rfl, rfl⟩),
   (C4_exit_check_characterization 5 7 false).2.2 (by decide) (by decide)⟩

/-! ## Meta-file write sites (C9)

Each definition is the exact format string of one `meta_printf` call,
instantiated with its integer argument. -/

/-- box.c:1209 — the `exitsig` entry written when the child stops with
`SIGXCPU` or `SIGXFSZ`.  The format string is `"exitsig:%d"`: it has NO
trailing newline. -/
def meta_exitsig_stop (sig : Int) : String := "exitsig:" ++ toString sig

/-- box.c:1115 — `exitsig` on `WIFSIGNALED`, `"exitsig:%d\n"`. -/
def meta_exitsig_signaled (sig : Int) : String := "exitsig:" ++ toString sig ++ "\n"

/-- box.c:908 — `exitsig` for a self-`kill`, `"exitsig:%d\n"`. -/
def meta_exitsig_kill (sig : Int) : String := "exitsig:" ++ toString sig ++ "\n"

/-- box.c:936 — `exitsig` on `SIGINT`, `"exitsig:%d\n"`. -/
def meta_exitsig_int (sig : Int) : String := "exitsig:" ++ toString sig ++ "\n"

/-- box.c:1097 — `"exitcode:%d\n"`. -/
def meta_exitcode (code : Int) : String := "exitcode:" ++ toString code ++ "\n"

/-- box.c:134 — `"killed:1\n"`. -/
def meta_killed : String := "killed:1\n"

/-- box.c:167 / box.c:182-187 — the `status:`/`message:` pair written by
`die` and `err`. -/
def meta_status_message (st msg : String) : String :=
  "status:" ++ st ++ "\nmessage:" ++ msg ++ "\n"

/-- Does the meta entry end with a newline, as the meta-file format
requires of every entry? -/
def endsNL (s : String) : Bool := s.toList.getLast? == some '\n'

/-- Claim C9 (code bug): the `exitsig` entry written on a `SIGXCPU`
(signal 24) stop is NOT newline-terminated — `meta_printf("exitsig:%d", sig)`
at box.c:1209 lacks the `\n` that every other meta write site has, so the
following `status:SG` line is glued onto it.  All the sibling sites are
newline-terminated as the claim (and the spec's meta format) require. -/
theorem C9_exitsig_stop_missing_newline :
    meta_exitsig_stop 24 = "exitsig:24" ∧
    endsNL (meta_exitsig_stop 24) = false ∧
    endsNL (meta_exitsig_signaled 24) = true ∧
    endsNL (meta_exitsig_kill 15) = true ∧
    endsNL (meta_exitsig_int 2) = true ∧
    endsNL (meta_exitcode 1) = true ∧
    endsNL meta_killed = true ∧
    endsNL (meta_status_message "SG" "Received signal 24") = true := by
  decide

end Box
